import Mathlib

/-!
Verification development for the VexRiscv fixed-point CNN inference engine
and its BlockDialect-Lite weight codec.

The definitions below are shallow embeddings of the C sources:
  - `decode_block` and its helpers embed `decode_block` from
    `scripts/host_verify_phase_b.c` (the software reference decoder; the
    hardware backend in `hyperram_phase_b` is specified to be
    observationally identical to it).
  - `get_weights` / `align4` embed the plain-format weight cursor of
    `hyperram_phase_full/src/main.c`.
  - `conv2d_3x3`, `batch_norm`, `option_a_downsample`, `add_relu_val`,
    `basic_block` embed the CNN primitives of `hyperram_phase_full/src/main.c`.
  - `bd_get_weights` embeds the encoded-format cursor of
    `hyperram_phase_b/src/main.c`.
  - `print_hash` embeds the verification hasher of
    `hyperram_phase_full/src/main.c`.

Machine integers are modelled as `Int`/`Nat` with explicit reduction
modulo `2^32` (`toS32`, `toU32`) and modulo `2^8` (`toS8`) wherever the C
code computes in `int32_t`/`int8_t` and overflow or truncation is
possible; this is the two's-complement behaviour of the RV32/host
targets.  Arithmetic right shift of an in-range `int32_t` is `Int`'s
`>>>`, which is floor division by the corresponding power of two.
-/

namespace VexRiscvNN

/-- Interpret an integer as a 32-bit two's-complement value
(reduce modulo `2^32 = 4294967296` into `[-2^31, 2^31)`). -/
def toS32 (x : Int) : Int :=
  if x % 4294967296 < 2147483648 then x % 4294967296
  else x % 4294967296 - 4294967296

/-- Interpret an integer as an 8-bit two's-complement value
(the effect of a C cast to `int8_t`). -/
def toS8 (x : Int) : Int :=
  if x % 256 < 128 then x % 256 else x % 256 - 256

/-- Interpret an integer as an unsigned 32-bit value
(the effect of a C cast to `uint32_t`). -/
def toU32 (x : Int) : Nat :=
  (x % 4294967296).toNat

/-- Sum `f 0 + f 1 + ... + f (n-1)` over `Int`, the accumulation pattern of
the C `for` loops. -/
def isum (n : Nat) (f : Nat → Int) : Int :=
  ((List.range n).map f).sum

/-! ## Block codec (`DIALECT_LUT`, `decode_block` from `host_verify_phase_b.c`) -/

/-- The 16x8 dialect lookup table, `DIALECT_LUT` in `host_verify_phase_b.c`. -/
def DIALECT_LUT : List (List Nat) :=
  [[0, 1, 2, 3, 4, 4, 4, 4],
   [0, 1, 2, 3, 3, 3, 4, 4],
   [0, 1, 2, 3, 4, 5, 5, 5],
   [0, 1, 2, 3, 3, 4, 5, 5],
   [0, 1, 2, 3, 4, 5, 6, 6],
   [0, 1, 2, 3, 4, 4, 6, 6],
   [0, 1, 2, 3, 4, 5, 6, 7],
   [0, 1, 2, 3, 4, 5, 7, 7],
   [0, 1, 2, 3, 4, 6, 7, 8],
   [0, 1, 2, 3, 4, 6, 8, 8],
   [0, 1, 2, 3, 4, 6, 8, 10],
   [0, 1, 2, 3, 4, 6, 10, 10],
   [0, 1, 2, 3, 4, 6, 10, 12],
   [0, 1, 2, 3, 4, 6, 12, 12],
   [0, 1, 2, 3, 4, 6, 12, 15],
   [0, 1, 2, 3, 4, 6, 13, 15]]

/-- `DIALECT_LUT[d][i]`. -/
def lutAt (d i : Nat) : Nat :=
  (DIALECT_LUT.getD d []).getD i 0

/-- Byte `k` of a block (a `uint8_t` read; values reduced mod 256). -/
def byteAt (block : List Nat) (k : Nat) : Nat :=
  block.getD k 0 % 256

/-- `meta = (block_data[0] << 8) | block_data[1]` — the big-endian 16-bit
metadata word. -/
def metaOf (block : List Nat) : Nat :=
  (byteAt block 0) <<< 8 ||| byteAt block 1

/-- `dialect_id = (meta >> 12) & 0xF`. -/
def dialectOf (block : List Nat) : Nat :=
  (metaOf block >>> 12) &&& 15

/-- `shared_exp = (meta >> 7) & 0x1F`. -/
def sharedExpOf (block : List Nat) : Nat :=
  (metaOf block >>> 7) &&& 31

/-- Decode one 4-bit code, following the body of `decode_block`:
sign is bit 3, index is bits 0-2, table lookup, exponent scaling
(computed in `int32_t`, hence the `toS32` wrap), clamp to 127, sign
application, and the final store into an `int8_t` (`toS8`). -/
def decode_nibble (dialect_id shared_exp code : Nat) : Int :=
  let sign : Nat := (code >>> 3) &&& 1
  let idx : Nat := code &&& 7
  let mag_scaled : Nat := lutAt dialect_id idx
  let real_mag : Int :=
    if shared_exp = 0 then ((mag_scaled + 1) / 2 : Nat)
    else toS32 ((mag_scaled <<< (shared_exp - 1) : Nat) : Int)
  let real_mag := if 127 < real_mag then 127 else real_mag
  if sign = 1 then toS8 (-real_mag) else toS8 real_mag

/-- `decode_block`: 18-byte block to 32 signed values, high nibble of each
packed byte first. -/
def decode_block (block : List Nat) : List Int :=
  let d := dialectOf block
  let e := sharedExpOf block
  ((List.range 16).map (fun i =>
    let byte_val := byteAt block (2 + i)
    [decode_nibble d e ((byte_val >>> 4) &&& 15),
     decode_nibble d e (byte_val &&& 15)])).flatten

/-- The closed-form per-code value from spec section 4.2, with exact
(mathematical) arithmetic: `scaled * 2^(sharedExponent-1)` instead of the
`int32_t` shift. -/
def spec_nibble (dialect_id shared_exp code : Nat) : Int :=
  let sign : Nat := (code >>> 3) &&& 1
  let idx : Nat := code &&& 7
  let scaled : Nat := lutAt dialect_id idx
  let magnitude : Int :=
    if shared_exp = 0 then ((scaled + 1) / 2 : Nat)
    else (scaled : Int) * 2 ^ (shared_exp - 1)
  let magnitude := if 127 < magnitude then 127 else magnitude
  if sign = 1 then -magnitude else magnitude

/-- Whole-block decode following the spec's closed-form formula
(same field extraction and nibble order as the code). -/
def specDecodeBlock (block : List Nat) : List Int :=
  let d := dialectOf block
  let e := sharedExpOf block
  ((List.range 16).map (fun i =>
    let byte_val := byteAt block (2 + i)
    [spec_nibble d e ((byte_val >>> 4) &&& 15),
     spec_nibble d e (byte_val &&& 15)])).flatten

/-! ## Plain-format weight cursor (`hyperram_phase_full/src/main.c`) -/

/-- The `while (w_offset % 4 != 0) w_offset++;` alignment loop. -/
def align4 (o : Nat) : Nat :=
  if o % 4 = 0 then o else align4 (o + 1)
termination_by (4 - o % 4) % 4
decreasing_by
  simp_wf
  omega

/-- Cursor state: current offset into the decoded weight stream, plus the
trace of `get_weights` requests (offset at the call, requested count). -/
structure CState where
  ofs : Nat
  trace : List (Nat × Nat)
deriving DecidableEq

/-- `reset_weights()`. -/
def reset_weights : CState :=
  ⟨0, []⟩

/-- `get_weights(count)` for the plain format: return the view position
(the pre-call offset), bump the offset by `count`, then run the alignment
loop. -/
def get_weights (s : CState) (count : Nat) : Nat × CState :=
  (s.ofs, ⟨align4 (s.ofs + count), s.trace ++ [(s.ofs, count)]⟩)

/-! ## Convolution, normalization, shortcut, residual block
(`hyperram_phase_full/src/main.c`) -/

/-- The accumulated sum of `conv2d_3x3` at output position `(oc, y, x)`:
zero-padded 3x3 window dot product over all input channels, with the
weight taken from the per-output-channel cache
(`channel_weight_cache[i] = weights[oc*in_c*9 + i]`). -/
def conv_sum (input weights : Nat → Int) (in_c h w stride padding oc y x : Nat) : Int :=
  isum in_c (fun ic =>
    isum 3 (fun ky =>
      isum 3 (fun kx =>
        let iy : Int := (y * stride + ky : Nat) - (padding : Nat)
        let ix : Int := (x * stride + kx : Nat) - (padding : Nat)
        if 0 ≤ iy ∧ iy < (h : Int) ∧ 0 ≤ ix ∧ ix < (w : Int) then
          input (ic * (h * w) + iy.toNat * w + ix.toNat) *
            weights (oc * (in_c * 9) + ic * 9 + ky * 3 + kx)
        else 0)))

/-- The value stored at an output position:
`output[...] = (int8_t)(sum >> 7)` — `sum` lives in an `int32_t`
(`toS32`), the shift is the arithmetic right shift, and the store
truncates to `int8_t` (`toS8`). -/
def conv_val (input weights : Nat → Int) (in_c h w stride padding oc y x : Nat) : Int :=
  toS8 ((toS32 (conv_sum input weights in_c h w stride padding oc y x)) >>> (7 : Nat))

/-- The full written output of one `conv2d_3x3` call as a map on linear
indices `oc * (out_h*out_w) + y * out_w + x`. -/
def conv_map (input weights : Nat → Int) (in_c h w stride padding : Nat) : Nat → Int :=
  fun idx =>
    let out_h := h / stride
    let out_w := w / stride
    conv_val input weights in_c h w stride padding
      (idx / (out_h * out_w)) (idx % (out_h * out_w) / out_w) (idx % (out_h * out_w) % out_w)

/-- `conv2d_3x3`: one `get_weights(out_c*in_c*3*3)` request, then the pure
convolution using the returned view into the weight stream. -/
def conv2d_3x3 (blob : Nat → Int) (s : CState) (input : Nat → Int)
    (in_c out_c h w stride padding : Nat) : (Nat → Int) × CState :=
  let r := get_weights s (out_c * in_c * 3 * 3)
  (conv_map input (fun k => blob (r.1 + k)) in_c h w stride padding, r.2)

/-- The per-element body of `batch_norm`:
`val = (val * w_bn) >> 6; val += b_bn;` then the selected clamp
(`[0,127]` with ReLU, `[-128,127]` without). -/
def bn_val (v scale bias : Int) (apply_relu : Bool) : Int :=
  let val := ((toS32 (v * scale)) >>> (6 : Nat)) + bias
  if apply_relu then
    if val < 0 then 0 else if 127 < val then 127 else val
  else
    if val < -128 then -128 else if 127 < val then 127 else val

/-- `batch_norm`: two `get_weights(channels)` requests (scale then bias),
then the in-place per-channel transform on indices
`idx < channels * (h*w)` (channel of `idx` is `idx / (h*w)`). -/
def batch_norm (blob : Nat → Int) (s : CState) (fm : Nat → Int)
    (channels h w : Nat) (apply_relu : Bool) : (Nat → Int) × CState :=
  let r1 := get_weights s channels
  let r2 := get_weights r1.2 channels
  (fun idx =>
    if idx < channels * (h * w) then
      bn_val (fm idx) (blob (r1.1 + idx / (h * w))) (blob (r2.1 + idx / (h * w))) apply_relu
    else fm idx, r2.2)

/-- Pure form of the `batch_norm` per-element transform (no write-region
guard), used to state what the residual block leaves in its buffers. -/
def bn_map (fm scaleF biasF : Nat → Int) (hw : Nat) (apply_relu : Bool) : Nat → Int :=
  fun idx => bn_val (fm idx) (scaleF (idx / hw)) (biasF (idx / hw)) apply_relu

/-- `option_a_downsample`: value written at linear output index `idx`
(zero-fill, then stride-2 copy of input channel `c` into output channel
`c + (out_c - in_c)/2`).  Consumes no weights. -/
def option_a_downsample (input : Nat → Int) (in_c out_c h w idx : Nat) : Int :=
  let out_h := h / 2
  let out_w := w / 2
  let pad_c := (out_c - in_c) / 2
  let oc := idx / (out_h * out_w)
  let rem := idx % (out_h * out_w)
  let y := rem / out_w
  let x := rem % out_w
  if pad_c ≤ oc ∧ oc < pad_c + in_c then
    input ((oc - pad_c) * (h * w) + y * 2 * w + x * 2)
  else 0

/-- The per-element body of `add_relu`: add and clamp to `[0,127]`. -/
def add_relu_val (d s : Int) : Int :=
  let val := d + s
  if val < 0 then 0 else if 127 < val then 127 else val

/-- The three feature-map buffers (`in_buf`, `out_buf`, `buffer_temp`)
plus the weight cursor, as touched by `basic_block`. -/
structure BBState where
  inB : Nat → Int
  outB : Nat → Int
  temp : Nat → Int
  cur : CState

/-- `basic_block` from `hyperram_phase_full/src/main.c`: conv1+bn+relu
into `out_buf`, shortcut into `buffer_temp` (downsample or copy — no
weight reads), conv2 into `in_buf` (used as scratch), bn (no relu) in
place on `in_buf`, copy to `out_buf` and `add_relu` with the shortcut.
The trailing `print_hash` call reads `out_buf` but writes no buffer and
consumes no weights; it is modelled separately by `print_hash`. -/
def basic_block (blob : Nat → Int) (st : BBState) (in_c out_c h w stride : Nat) : BBState :=
  let out_h := h / stride
  let out_w := w / stride
  let out_size := out_c * (out_h * out_w)
  let r1 := conv2d_3x3 blob st.cur st.inB in_c out_c h w stride 1
  let outB1 := fun idx => if idx < out_size then r1.1 idx else st.outB idx
  let r2 := batch_norm blob r1.2 outB1 out_c out_h out_w true
  let temp1 :=
    if stride ≠ 1 ∨ in_c ≠ out_c then
      fun idx => if idx < out_size then option_a_downsample st.inB in_c out_c h w idx
                 else st.temp idx
    else
      fun idx => if idx < out_size then st.inB idx else st.temp idx
  let r3 := conv2d_3x3 blob r2.2 r2.1 out_c out_c out_h out_w 1 1
  let inB1 := fun idx => if idx < out_size then r3.1 idx else st.inB idx
  let r4 := batch_norm blob r3.2 inB1 out_c out_h out_w false
  let outB2 := fun idx => if idx < out_size then add_relu_val (r4.1 idx) (temp1 idx) else r2.1 idx
  ⟨r4.1, outB2, temp1, r4.2⟩

/-- What `basic_block` leaves in `in_buf` on the written region, expressed
as a pure dataflow from the starting cursor offset `o0`: the
normalization (no ReLU) of the second convolution of the normalized
first convolution. -/
def rb_pure_inB (blob inB : Nat → Int) (in_c out_c h w stride o0 : Nat) : Nat → Int :=
  let out_h := h / stride
  let out_w := w / stride
  let o1 := align4 (o0 + out_c * in_c * 3 * 3)
  let o2 := align4 (o1 + out_c)
  let o3 := align4 (o2 + out_c)
  let o4 := align4 (o3 + out_c * out_c * 3 * 3)
  let o5 := align4 (o4 + out_c)
  let c1 := conv_map inB (fun k => blob (o0 + k)) in_c h w stride 1
  let n1 := bn_map c1 (fun k => blob (o1 + k)) (fun k => blob (o2 + k)) (out_h * out_w) true
  let c2 := conv_map n1 (fun k => blob (o3 + k)) out_c out_h out_w 1 1
  bn_map c2 (fun k => blob (o4 + k)) (fun k => blob (o5 + k)) (out_h * out_w) false

/-- The shortcut value of `basic_block`: Option-A downsample when shape
changes, otherwise the original input value. -/
def rb_pure_shortcut (inB : Nat → Int) (in_c out_c h w stride : Nat) : Nat → Int :=
  fun idx =>
    if stride ≠ 1 ∨ in_c ≠ out_c then option_a_downsample inB in_c out_c h w idx
    else inB idx

/-! ## Verification hasher (`print_hash` in `hyperram_phase_full/src/main.c`) -/

/-- The checksum loop: `sum += (uint32_t)(int32_t)buffer[i]` in a
`uint32_t` accumulator. -/
def hash_loop (buf : Nat → Int) (size : Nat) : Nat :=
  (List.range size).foldl (fun acc i => (acc + toU32 (buf i)) % 4294967296) 0

/-- `print_hash`: compute the checksum, compare with the golden entry at
the current cursor; on mismatch report `(name, expected, actual)` and
halt (`while(1)` — modelled as `Except.error`, and the cursor increment
after the comparison is never reached); on match return the advanced
cursor. -/
def print_hash (name : String) (golden : Nat → Nat) (hash_idx : Nat)
    (buf : Nat → Int) (size : Nat) : Except (String × Nat × Nat) Nat :=
  let sum := hash_loop buf size
  if sum ≠ golden hash_idx then Except.error (name, golden hash_idx, sum)
  else Except.ok (hash_idx + 1)

/-! ## Encoded-format cursor (`get_weights` in `hyperram_phase_b/src/main.c`) -/

/-- A little-endian `uint32_t` load from the weight blob. -/
def le32 (blob : Nat → Nat) (o : Nat) : Nat :=
  blob o % 256 + blob (o + 1) % 256 * 256 + blob (o + 2) % 256 * 65536 +
    blob (o + 3) % 256 * 16777216

/-- The block-decode loop of the encoded-format `get_weights`: for each
block, first check `(b + 1) * 32 > 512` and `break` (the scratch-buffer
guard), otherwise decode the 18-byte block at the current offset into
`decode_buf[b*32 ..]` and advance by 18 bytes.  The per-block decode is
`decode_block` (the hardware backend is specified to be observationally
identical to the software decoder). -/
def bd_decode_loop (blob : Nat → Nat) (buf : Nat → Int) (ofs b n_blocks : Nat) :
    (Nat → Int) × Nat :=
  if b < n_blocks then
    if (b + 1) * 32 > 512 then (buf, ofs)
    else
      let decoded := decode_block ((List.range 18).map (fun k => blob (ofs + k)))
      let buf' := fun j =>
        if b * 32 ≤ j ∧ j < b * 32 + 32 then decoded.getD (j - b * 32) 0 else buf j
      bd_decode_loop blob buf' (ofs + 18) (b + 1) n_blocks
  else (buf, ofs)
termination_by n_blocks - b

/-- The encoded-format `get_weights`: read the 8-byte tensor header
(`n_elements` is read but unused), run the decode loop from block 0, then
4-byte-align the offset.  The return type has no error channel: the
function always returns the scratch buffer. -/
def bd_get_weights (blob : Nat → Nat) (buf : Nat → Int) (ofs : Nat) : (Nat → Int) × Nat :=
  let n_blocks := le32 blob (ofs + 4)
  let r := bd_decode_loop blob buf (ofs + 8) 0 n_blocks
  (r.1, align4 r.2)

/-! ## Classifier head (`main` in `hyperram_phase_full/src/main.c`) -/

/-- The ten logits of the dense layer:
`logit i = Σ_{c<64} pooled[c] * fc_w[i*64+c] + fc_b[i]` at 32-bit width. -/
def fc_logits (pooled fc_w fc_b : Nat → Int) (i : Nat) : Int :=
  isum 64 (fun c => pooled c * fc_w (i * 64 + c)) + fc_b i

/-- The argmax loop of `main`: `best_class = 0`, `best_score = -9999999`,
update on strict `>`. -/
def fc_loop (logits : Nat → Int) : Nat → Nat → Nat → Int → Nat × Int
  | 0, _, bc, bs => (bc, bs)
  | fuel + 1, i, bc, bs =>
    if logits i > bs then fc_loop logits fuel (i + 1) i (logits i)
    else fc_loop logits fuel (i + 1) bc bs

/-- The predicted class computed by `main`. -/
def fc_argmax (logits : Nat → Int) : Nat :=
  (fc_loop logits 10 0 0 (-9999999)).1

/-- `j` is the smallest of the ten indices attaining the maximum logit. -/
def isLeastArgmax (logits : Nat → Int) (j : Nat) : Prop :=
  j < 10 ∧ (∀ i < 10, logits i ≤ logits j) ∧ ∀ i < j, logits i < logits j

instance (logits : Nat → Int) (j : Nat) : Decidable (isLeastArgmax logits j) := by
  unfold isLeastArgmax
  infer_instance

/-! ## Startup magic check (`main` of the firmware images and host verifiers) -/

/-- Observable startup events relevant to the bad-magic claim. -/
inductive Ev where
  | badMagicReport : Ev
  | inference : Ev
deriving DecidableEq

/-- The plain-format magic constant `0x56574230`. -/
def MAGIC_PLAIN : Nat := 0x56574230

/-- Startup of `hyperram_phase_full/src/main.c`: on bad magic it prints
`Invalid Magic!` and falls through; `conv2d_3x3` (the first inference
step) runs unconditionally afterwards. -/
def phase_full_boot (magic : Nat) : List Ev :=
  (if magic ≠ MAGIC_PLAIN then [Ev.badMagicReport] else []) ++ [Ev.inference]

/-- Startup of `hyperram_phase_a/src/main.c`: same structure (its
`while(1)` after the report is commented out). -/
def phase_a_boot (magic : Nat) : List Ev :=
  (if magic ≠ MAGIC_PLAIN then [Ev.badMagicReport] else []) ++ [Ev.inference]

/-- `main` of `scripts/host_verify.c`: on bad magic it reports and
`return 1` — no inference step runs. -/
def host_verify_main (magic : Nat) : List Ev :=
  if magic ≠ MAGIC_PLAIN then [Ev.badMagicReport] else [Ev.inference]

/-! ## Concrete inputs used by counterexamples and witnesses -/

/-- A block with dialect 0, shared exponent 31, all codes 4:
`meta = 0x0F80`, packed bytes `0x44`. -/
def cexC1Block : List Nat :=
  15 :: 128 :: List.replicate 16 68

/-- The all-zero 18-byte block. -/
def zeroBlock : List Nat :=
  List.replicate 18 0

/-- The constantly-zero integer map. -/
def izero : Nat → Int :=
  fun _ => 0

/-- The constantly-one integer map. -/
def ione : Nat → Int :=
  fun _ => 1

/-- The constantly-minus-one integer map. -/
def ineg : Nat → Int :=
  fun _ => -1

/-- Logits that expose the `-9999999` sentinel: index 1 attains the
maximum `-9999999`, every other index holds `-10000000`. -/
def cexLogits : Nat → Int :=
  fun i => if i = 1 then -9999999 else -10000000

/-- A blob whose tensor header declares 17 blocks. -/
def cexBlob17 : Nat → Nat :=
  fun i => if i = 4 then 17 else 0

/-- A golden table that expects checksum 5 everywhere. -/
def goldenFive : Nat → Nat :=
  fun _ => 5

/-- A buffer of a single element 7. -/
def bufSeven : Nat → Int :=
  fun _ => 7

/-- A concrete basic-block state for witnesses: input all ones, other
buffers zero, cursor at reset. -/
def bbWitState : BBState :=
  ⟨ione, izero, izero, reset_weights⟩

/-! ## Helper lemmas -/

theorem align4_eq (o : Nat) : align4 o = 4 * ((o + 3) / 4) := by
  have h4 : o % 4 = 0 ∨ o % 4 = 1 ∨ o % 4 = 2 ∨ o % 4 = 3 := by omega
  rcases h4 with h | h | h | h
  · rw [align4, if_pos h]
    omega
  · have h1 : ¬o % 4 = 0 := by omega
    have h2 : ¬(o + 1) % 4 = 0 := by omega
    have h3 : ¬(o + 2) % 4 = 0 := by omega
    have h4 : (o + 3) % 4 = 0 := by omega
    rw [align4, if_neg h1, align4, if_neg h2, align4, if_neg h3, align4, if_pos h4]
    omega
  · have h1 : ¬o % 4 = 0 := by omega
    have h2 : ¬(o + 1) % 4 = 0 := by omega
    have h3 : (o + 2) % 4 = 0 := by omega
    rw [align4, if_neg h1, align4, if_neg h2, align4, if_pos h3]
    omega
  · have h1 : ¬o % 4 = 0 := by omega
    have h2 : (o + 1) % 4 = 0 := by omega
    rw [align4, if_neg h1, align4, if_pos h2]
    omega

theorem isum_succ (n : Nat) (f : Nat → Int) : isum (n + 1) f = isum n f + f n := by
  simp [isum, List.range_succ]

theorem isum_congr {n : Nat} {f g : Nat → Int} (h : ∀ i < n, f i = g i) :
    isum n f = isum n g := by
  unfold isum
  congr 1
  exact List.map_congr_left (fun i hi => h i (List.mem_range.mp hi))

theorem isum_abs_le {B : Int} (n : Nat) (f : Nat → Int) (h : ∀ i < n, |f i| ≤ B) :
    |isum n f| ≤ (n : Int) * B := by
  induction n with
  | zero => simp [isum]
  | succ n ih =>
    rw [isum_succ]
    have h1 : |isum n f| ≤ (n : Int) * B := ih (fun i hi => h i (by omega))
    have h2 : |f n| ≤ B := h n (by omega)
    calc |isum n f + f n| ≤ |isum n f| + |f n| := abs_add _ _
      _ ≤ (n : Int) * B + B := by exact add_le_add h1 h2
      _ = ((n : Nat) + 1 : Int) * B := by ring
      _ = ((n + 1 : Nat) : Int) * B := by push_cast; ring

theorem isum_ge {B : Int} (n : Nat) (f : Nat → Int) (h : ∀ i < n, B ≤ f i) :
    (n : Int) * B ≤ isum n f := by
  induction n with
  | zero => simp [isum]
  | succ n ih =>
    rw [isum_succ]
    have h1 : (n : Int) * B ≤ isum n f := ih (fun i hi => h i (by omega))
    have h2 : B ≤ f n := h n (by omega)
    push_cast
    nlinarith

theorem hash_loop_eq (buf : Nat → Int) (n : Nat) :
    hash_loop buf n = ((isum n buf) % 4294967296).toNat := by
  induction n with
  | zero => simp [hash_loop, isum]
  | succ n ih =>
    have hstep : hash_loop buf (n + 1) = (hash_loop buf n + toU32 (buf n)) % 4294967296 := by
      simp [hash_loop, List.range_succ]
    have hmod : (isum (n + 1) buf) % 4294967296 =
        ((isum n buf) % 4294967296 + (buf n) % 4294967296) % 4294967296 := by
      rw [isum_succ, Int.add_emod]
    rw [hstep, ih, hmod]
    unfold toU32
    omega

theorem toS32_eq_self {x : Int} (h1 : -2147483648 ≤ x) (h2 : x < 2147483648) : toS32 x = x := by
  unfold toS32
  omega

theorem int_sar_eq_div (x : Int) : x >>> (7 : Nat) = x / 128 := by
  rw [Int.shiftRight_eq_div_pow]
  norm_num

/-! ## Claim C7 — plain-format cursor alignment -/

/-- C7: after reset and after every `get_weights` call the weight-cursor
offset is a multiple of 4 — in both formats: the plain-format cursor of
`hyperram_phase_full` and the encoded-format cursor of
`hyperram_phase_b` (`bd_get_weights`, whose `reset_weights` also sets the
offset to 0) run the same alignment loop after every request.  In the
plain format a request for `n` values returns a view at the pre-call
offset and leaves the offset at the smallest multiple of 4 that is at
least `offset + n` (so a 3-byte request from an aligned offset advances
the offset by 4). -/
theorem c7_cursor_alignment (s : CState) (n : Nat) (blob : Nat → Nat)
    (buf : Nat → Int) (o : Nat) :
    reset_weights.ofs % 4 = 0 ∧
    (get_weights s n).1 = s.ofs ∧
    (get_weights s n).2.ofs = 4 * ((s.ofs + n + 3) / 4) ∧
    (get_weights s n).2.ofs % 4 = 0 ∧
    (bd_get_weights blob buf o).2 % 4 = 0 := by
  refine ⟨rfl, rfl, ?_, ?_, ?_⟩
  · simp [get_weights, align4_eq]
  · simp [get_weights, align4_eq]
  · simp [bd_get_weights, align4_eq]

/-! ## Claim C5 — verification hasher -/

/-- C5 counterexample: a mismatching `print_hash` call reports
`(name, expected, actual)` and halts — it does not return an advanced
cursor, so the cursor is not incremented "regardless of match". -/
theorem c5_counterexample :
    print_hash "conv1" goldenFive 0 bufSeven 1 = Except.error ("conv1", 5, 7) ∧
    hash_loop bufSeven 1 ≠ goldenFive 0 := by
  constructor
  · rfl
  · decide

/-- C5 (amended): `print_hash` computes the checksum as the sum of the
sign-extended elements modulo `2^32`, compares it with the golden entry
at the current cursor; on match it returns the cursor advanced by one, on
mismatch it reports the layer name with expected and actual values and
halts permanently — before the cursor is advanced. -/
theorem c5_print_hash (name : String) (golden : Nat → Nat) (idx : Nat)
    (buf : Nat → Int) (size : Nat) :
    print_hash name golden idx buf size =
      (if hash_loop buf size = golden idx then Except.ok (idx + 1)
       else Except.error (name, golden idx, hash_loop buf size)) ∧
    hash_loop buf size = ((isum size buf) % 4294967296).toNat := by
  constructor
  · by_cases h : hash_loop buf size = golden idx <;> simp [print_hash, h]
  · exact hash_loop_eq buf size

/-! ## Claim C3 — bad-magic handling -/

/-- C3 counterexample: the phase-full firmware detects a bad magic word
(magic 0), reports it, and the first inference step still executes — the
run is not aborted. -/
theorem c3_counterexample :
    phase_full_boot 0 = [Ev.badMagicReport, Ev.inference] := by
  decide

/-- C3 (amended): on a bad magic word the host verifier reports the
format error and aborts with no inference step, while the firmware images
(`hyperram_phase_full`, `hyperram_phase_a`) report `Invalid Magic!` but
continue: inference executes anyway. -/
theorem c3_bad_magic (magic : Nat) (h : magic ≠ MAGIC_PLAIN) :
    host_verify_main magic = [Ev.badMagicReport] ∧
    phase_full_boot magic = [Ev.badMagicReport, Ev.inference] ∧
    phase_a_boot magic = [Ev.badMagicReport, Ev.inference] := by
  refine ⟨?_, ?_, ?_⟩ <;> simp [host_verify_main, phase_full_boot, phase_a_boot, h]

/-- C3 witness: the amended claim at magic 0. -/
theorem c3_bad_magic_witness :
    (0 ≠ MAGIC_PLAIN) ∧
    (host_verify_main 0 = [Ev.badMagicReport] ∧
     phase_full_boot 0 = [Ev.badMagicReport, Ev.inference] ∧
     phase_a_boot 0 = [Ev.badMagicReport, Ev.inference]) :=
  ⟨by decide, c3_bad_magic 0 (by decide)⟩

/-! ## Claim C2 — classifier argmax, part 1 (counterexample) -/

/-- C2 counterexample: with all logits at or below the `-9999999`
sentinel the loop never updates, so the predicted class is 0 even though
index 1 is the unique maximum — the tie-break rule does not hold "for all
logit values". -/
theorem c2_counterexample :
    fc_argmax cexLogits = 0 ∧ ¬ isLeastArgmax cexLogits (fc_argmax cexLogits) := by
  constructor
  · rfl
  · decide

/-! ## Claim C2 — classifier argmax, part 2 (amended claim) -/

theorem fc_loop_spec (logits : Nat → Int) :
    ∀ fuel i bc bs,
      (∀ j < i, logits j ≤ bs) →
      (bs = -9999999 ∨
        (bc < i ∧ logits bc = bs ∧ -9999999 < bs ∧ ∀ j < bc, logits j < bs)) →
      (∀ j < i + fuel, logits j ≤ (fc_loop logits fuel i bc bs).2) ∧
      ((fc_loop logits fuel i bc bs).2 = -9999999 ∨
        ((fc_loop logits fuel i bc bs).1 < i + fuel ∧
         logits (fc_loop logits fuel i bc bs).1 = (fc_loop logits fuel i bc bs).2 ∧
         -9999999 < (fc_loop logits fuel i bc bs).2 ∧
         ∀ j < (fc_loop logits fuel i bc bs).1,
           logits j < (fc_loop logits fuel i bc bs).2)) := by
  intro fuel
  induction fuel with
  | zero =>
    intro i bc bs h1 h2
    simpa [fc_loop] using ⟨h1, h2⟩
  | succ fuel ih =>
    intro i bc bs h1 h2
    have hsent : -9999999 ≤ bs := by
      rcases h2 with h | h
      · omega
      · exact le_of_lt h.2.2.1
    have hidx : i + (fuel + 1) = (i + 1) + fuel := by omega
    simp only [fc_loop]
    by_cases hgt : logits i > bs
    · rw [if_pos hgt]
      rw [hidx]
      apply ih (i + 1) i (logits i)
      · intro j hj
        rcases Nat.lt_succ_iff_lt_or_eq.mp hj with h | h
        · exact le_of_lt (lt_of_le_of_lt (h1 j h) hgt)
        · exact le_of_eq (by rw [h])
      · right
        exact ⟨Nat.lt_succ_self i, rfl, lt_of_le_of_lt hsent hgt,
          fun j hj => lt_of_le_of_lt (h1 j hj) hgt⟩
    · rw [if_neg hgt]
      rw [hidx]
      apply ih (i + 1) bc bs
      · intro j hj
        rcases Nat.lt_succ_iff_lt_or_eq.mp hj with h | h
        · exact h1 j h
        · rw [h]; exact le_of_not_lt hgt
      · rcases h2 with h | h
        · exact Or.inl h
        · exact Or.inr ⟨Nat.lt_succ_of_lt h.1, h.2⟩

theorem fc_logits_lower (pooled fc_w fc_b : Nat → Int)
    (hp : ∀ c < 64, -128 ≤ pooled c ∧ pooled c ≤ 127)
    (hw : ∀ k < 640, -128 ≤ fc_w k ∧ fc_w k ≤ 127)
    (hb : ∀ i < 10, -128 ≤ fc_b i ∧ fc_b i ≤ 127) :
    -9999999 < fc_logits pooled fc_w fc_b 0 := by
  unfold fc_logits
  have hterm : ∀ c < 64, (-16384 : Int) ≤ pooled c * fc_w (0 * 64 + c) := by
    intro c hc
    have h1 := hp c hc
    have h2 := hw (0 * 64 + c) (by omega)
    have ha : |pooled c| ≤ 128 := abs_le.mpr ⟨by linarith [h1.1], by linarith [h1.2]⟩
    have hb' : |fc_w (0 * 64 + c)| ≤ 128 := abs_le.mpr ⟨by linarith [h2.1], by linarith [h2.2]⟩
    have habs : |pooled c * fc_w (0 * 64 + c)| ≤ 16384 := by
      rw [abs_mul]
      calc |pooled c| * |fc_w (0 * 64 + c)| ≤ 128 * 128 :=
            mul_le_mul ha hb' (abs_nonneg _) (by norm_num)
        _ = 16384 := by norm_num
    linarith [neg_abs_le (pooled c * fc_w (0 * 64 + c))]
  have hsum := isum_ge 64 (fun c => pooled c * fc_w (0 * 64 + c)) hterm
  have hb0 := hb 0 (by omega)
  have h64 : ((64 : Nat) : Int) * (-16384) = -1048576 := by norm_num
  rw [h64] at hsum
  linarith [hb0.1]

/-- C2 (amended): for every vector of ten logits computed by the dense
layer from int8 pooled activations, weights, and biases, the predicted
class is the smallest index attaining the maximum logit (strict-`>`
comparison, earliest index wins ties).  Such computed logits always
exceed the loop's `-9999999` sentinel; for arbitrary `int32` logit
vectors at or below the sentinel the rule fails (see the
counterexample). -/
theorem c2_argmax (pooled fc_w fc_b : Nat → Int)
    (hp : ∀ c < 64, -128 ≤ pooled c ∧ pooled c ≤ 127)
    (hw : ∀ k < 640, -128 ≤ fc_w k ∧ fc_w k ≤ 127)
    (hb : ∀ i < 10, -128 ≤ fc_b i ∧ fc_b i ≤ 127) :
    isLeastArgmax (fc_logits pooled fc_w fc_b) (fc_argmax (fc_logits pooled fc_w fc_b)) := by
  have h0 : -9999999 < fc_logits pooled fc_w fc_b 0 := fc_logits_lower pooled fc_w fc_b hp hw hb
  have hinv := fc_loop_spec (fc_logits pooled fc_w fc_b) 10 0 0 (-9999999)
    (by intro j hj; omega) (Or.inl rfl)
  obtain ⟨hle, hdis⟩ := hinv
  rcases hdis with hsent | ⟨hlt, heq, hpos, hmin⟩
  · exfalso
    have := hle 0 (by omega)
    rw [hsent] at this
    exact absurd this (not_le.mpr h0)
  · refine ⟨by simpa using hlt, ?_, ?_⟩
    · intro i hi
      have := hle i (by omega)
      rw [← heq] at this
      exact this
    · intro i hi
      have := hmin i hi
      rw [← heq] at this
      exact this

set_option maxRecDepth 8000 in
/-- C2 witness: the amended claim at the all-zero pooled vector, weights,
and biases. -/
theorem c2_argmax_witness :
    isLeastArgmax (fc_logits izero izero izero) (fc_argmax (fc_logits izero izero izero)) :=
  c2_argmax izero izero izero (by decide) (by decide) (by decide)

/-! ## Claims C1 and C9 — block codec -/

theorem and15_lt (x : Nat) : x &&& 15 < 16 := by
  have h := Nat.and_lt_two_pow x (show 15 < 2 ^ 4 by norm_num)
  norm_num at h
  exact h

theorem and31_lt (x : Nat) : x &&& 31 < 32 := by
  have h := Nat.and_lt_two_pow x (show 31 < 2 ^ 5 by norm_num)
  norm_num at h
  exact h

set_option maxHeartbeats 4000000 in
theorem nibble_agree : ∀ d < 16, ∀ e < 29, ∀ c < 16,
    decode_nibble d e c = spec_nibble d e c := by
  decide

set_option maxHeartbeats 4000000 in
theorem nibble_range : ∀ d < 16, ∀ e < 32, ∀ c < 16,
    -127 ≤ decode_nibble d e c ∧ decode_nibble d e c ≤ 127 := by
  decide

/-- C1 counterexample: a block with dialect 0, shared exponent 31, and
every code 4 (`scaled = 4`).  The `int32_t` shift `4 << 30` wraps to 0,
so the decoder emits 0, while the closed-form magnitude
`4 * 2^30` clamps to 127. -/
theorem c1_counterexample :
    dialectOf cexC1Block = 0 ∧ sharedExpOf cexC1Block = 31 ∧
    (decode_block cexC1Block).getD 0 0 = 0 ∧
    (specDecodeBlock cexC1Block).getD 0 0 = 127 := by
  refine ⟨by decide, by decide, by decide, by decide⟩

/-- C1 (amended): for every 18-byte block whose shared exponent is at
most 28 (so the `int32_t` magnitude shift cannot overflow), every decoded
value equals the closed-form formula of spec section 4.2: sign is bit 3,
index bits 0-2, `scaled = dialectTable[dialectId][index]`, magnitude
`(scaled+1) >> 1` for exponent 0 and `scaled << (exponent-1)` otherwise,
clamped to 127, negated when the sign bit is set. -/
theorem c1_decode (block : List Nat) (he : sharedExpOf block ≤ 28) :
    decode_block block = specDecodeBlock block := by
  unfold decode_block specDecodeBlock
  apply congrArg List.flatten
  apply List.map_congr_left
  intro i _
  have hd : dialectOf block < 16 := and15_lt _
  have he' : sharedExpOf block < 29 := by omega
  dsimp only
  rw [nibble_agree _ hd _ he' _ (and15_lt _), nibble_agree _ hd _ he' _ (and15_lt _)]

/-- C1 witness: the amended claim at the all-zero block. -/
theorem c1_decode_witness :
    sharedExpOf zeroBlock ≤ 28 ∧ decode_block zeroBlock = specDecodeBlock zeroBlock :=
  ⟨by decide, c1_decode zeroBlock (by decide)⟩

/-- C9: every value produced by the block decoder lies in `[-127, 127]`;
`-128` is never produced, because the magnitude is clamped to 127 before
the sign is applied (and the wrapped overflow cases land on multiples of
`2^28`, which truncate to 0). -/
theorem c9_decode_range (block : List Nat) (v : Int) (hv : v ∈ decode_block block) :
    -127 ≤ v ∧ v ≤ 127 := by
  simp only [decode_block] at hv
  rw [List.mem_flatten] at hv
  obtain ⟨l, hl, hvl⟩ := hv
  rw [List.mem_map] at hl
  obtain ⟨i, _, rfl⟩ := hl
  have hd : dialectOf block < 16 := and15_lt _
  have he : sharedExpOf block < 32 := and31_lt _
  simp only [List.mem_cons, List.not_mem_nil, or_false] at hvl
  rcases hvl with rfl | rfl
  · exact nibble_range _ hd _ he _ (and15_lt _)
  · exact nibble_range _ hd _ he _ (and15_lt _)

/-- C9 witness: the bound at the first value of the all-zero block. -/
theorem c9_decode_range_witness :
    (0 : Int) ∈ decode_block zeroBlock ∧ (-127 ≤ (0 : Int) ∧ (0 : Int) ≤ 127) :=
  ⟨by decide, c9_decode_range zeroBlock 0 (by decide)⟩

/-! ## Claim C4 — convolution rescale -/

theorem conv_sum_abs (input weights : Nat → Int) (in_c h w stride padding oc y x : Nat)
    (hin : ∀ j, -128 ≤ input j ∧ input j ≤ 127)
    (hwt : ∀ j, -128 ≤ weights j ∧ weights j ≤ 127) :
    |conv_sum input weights in_c h w stride padding oc y x| ≤ (in_c : Int) * 147456 := by
  have habs : ∀ j, |input j| ≤ 128 :=
    fun j => abs_le.mpr ⟨by linarith [(hin j).1], by linarith [(hin j).2]⟩
  have hwabs : ∀ j, |weights j| ≤ 128 :=
    fun j => abs_le.mpr ⟨by linarith [(hwt j).1], by linarith [(hwt j).2]⟩
  unfold conv_sum
  apply isum_abs_le
  intro ic _
  calc |isum 3 _| ≤ ((3 : Nat) : Int) * 49152 := by
        apply isum_abs_le
        intro ky _
        calc |isum 3 _| ≤ ((3 : Nat) : Int) * 16384 := by
              apply isum_abs_le
              intro kx _
              dsimp only
              split_ifs
              · rw [abs_mul]
                calc |input _| * |weights _| ≤ 128 * 128 :=
                      mul_le_mul (habs _) (hwabs _) (abs_nonneg _) (by norm_num)
                  _ = 16384 := by norm_num
              · simp
          _ = 49152 := by norm_num
    _ = 147456 := by norm_num

/-- C4: for every output position of the 3x3 convolution (over int8
inputs and weights, with at most 64 input channels as in every call in
the program), the stored value is the 32-bit accumulated sum divided by
128 rounding toward negative infinity (the arithmetic right shift by 7),
then truncated to 8 bits with no saturation. -/
theorem c4_conv_shift (input weights : Nat → Int) (in_c h w stride padding oc y x : Nat)
    (hin : ∀ j, -128 ≤ input j ∧ input j ≤ 127)
    (hwt : ∀ j, -128 ≤ weights j ∧ weights j ≤ 127)
    (hc : in_c ≤ 64) :
    conv_val input weights in_c h w stride padding oc y x =
      toS8 (conv_sum input weights in_c h w stride padding oc y x / 128) := by
  have hs := conv_sum_abs input weights in_c h w stride padding oc y x hin hwt
  have hc' : ((in_c : Nat) : Int) ≤ 64 := by exact_mod_cast hc
  have hle : (in_c : Int) * 147456 ≤ 9437184 := by nlinarith
  have hb := abs_le.mp (le_trans hs hle)
  unfold conv_val
  rw [toS32_eq_self (by linarith [hb.1]) (by linarith [hb.2]), int_sar_eq_div]

/-- C4 witness: a 1-channel 1x1 convolution whose accumulated sum is
`-1`; the stored value is `-1` (floor division), not 0. -/
theorem c4_conv_shift_witness :
    conv_val ione ineg 1 1 1 1 0 0 0 0 = toS8 (conv_sum ione ineg 1 1 1 1 0 0 0 0 / 128) ∧
    conv_sum ione ineg 1 1 1 1 0 0 0 0 = -1 ∧
    conv_val ione ineg 1 1 1 1 0 0 0 0 = -1 := by
  refine ⟨c4_conv_shift ione ineg 1 1 1 1 0 0 0 0 ?_ ?_ (by norm_num), by decide, by decide⟩
  · intro j
    constructor <;> norm_num [ione]
  · intro j
    constructor <;> norm_num [ineg]

/-! ## Claim C8 — encoded-format scratch-buffer truncation -/

theorem bd_loop_clip (blob : Nat → Nat) (nb : Nat) (hnb : 16 ≤ nb) :
    ∀ k b (buf : Nat → Int) (ofs : Nat), b + k = 16 →
      bd_decode_loop blob buf ofs b nb = bd_decode_loop blob buf ofs b 16 := by
  intro k
  induction k with
  | zero =>
    intro b buf ofs hb
    have hb16 : b = 16 := by omega
    subst hb16
    rw [bd_decode_loop]
    conv_rhs => rw [bd_decode_loop]
    by_cases h : 16 < nb
    · rw [if_pos h, if_pos (by norm_num : (16 + 1) * 32 > 512), if_neg (by omega : ¬16 < 16)]
    · rw [if_neg h, if_neg (by omega : ¬16 < 16)]
  | succ k ih =>
    intro b buf ofs hb
    have hblt : b < 16 := by omega
    have hlt : b < nb := by omega
    have h512 : ¬((b + 1) * 32 > 512) := by omega
    rw [bd_decode_loop, if_pos hlt, if_neg h512]
    conv_rhs => rw [bd_decode_loop, if_pos hblt, if_neg h512]
    dsimp only
    exact ih (b + 1) _ (ofs + 18) (by omega)

theorem bd_loop_ofs (blob : Nat → Nat) :
    ∀ k b (buf : Nat → Int) (ofs : Nat), b + k = 16 →
      (bd_decode_loop blob buf ofs b 16).2 = ofs + k * 18 := by
  intro k
  induction k with
  | zero =>
    intro b buf ofs hb
    have hb16 : b = 16 := by omega
    subst hb16
    rw [bd_decode_loop, if_neg (by omega : ¬16 < 16)]
    omega
  | succ k ih =>
    intro b buf ofs hb
    have hblt : b < 16 := by omega
    have h512 : ¬((b + 1) * 32 > 512) := by omega
    rw [bd_decode_loop, if_pos hblt, if_neg h512]
    dsimp only
    rw [ih (b + 1) _ (ofs + 18) (by omega)]
    omega

/-- C8: when the tensor header declares more than 16 blocks
(`blockCount * 32` exceeds the 512-element scratch buffer), the
encoded-format `get_weights` decodes only the first 16 blocks, drops the
trailing blocks, and returns the scratch buffer normally — its return
type carries no error or truncation signal. -/
theorem c8_truncation (blob : Nat → Nat) (buf : Nat → Int) (ofs : Nat)
    (h : 16 < le32 blob (ofs + 4)) :
    bd_get_weights blob buf ofs =
      ((bd_decode_loop blob buf (ofs + 8) 0 16).1, align4 (ofs + 8 + 288)) := by
  unfold bd_get_weights
  dsimp only
  rw [bd_loop_clip blob (le32 blob (ofs + 4)) (by omega) 16 0 buf (ofs + 8) (by omega)]
  rw [bd_loop_ofs blob 16 0 buf (ofs + 8) (by omega)]

/-- C8 witness: a header declaring 17 blocks is truncated to the 16 that
fit. -/
theorem c8_truncation_witness :
    16 < le32 cexBlob17 (0 + 4) ∧
    bd_get_weights cexBlob17 izero 0 =
      ((bd_decode_loop cexBlob17 izero (0 + 8) 0 16).1, align4 (0 + 8 + 288)) :=
  ⟨by decide, c8_truncation cexBlob17 izero 0 (by decide)⟩

/-! ## Claim C6 — weight consumption order in the residual block -/

/-- C6: during one `basic_block` invocation the weight cursor serves
exactly six requests, in this order: conv1's `outC*inC*9` weights, then
conv1's `outC` scale values, then conv1's `outC` bias values, then
conv2's `outC*outC*9` weights, then conv2's `outC` scale values, then
conv2's `outC` bias values — each at the 4-byte-aligned offset following
the previous request.  The shortcut path (downsample or copy) appears
nowhere in the trace: it performs no cursor reads. -/
theorem c6_weight_order (blob : Nat → Int) (st : BBState) (in_c out_c h w stride : Nat) :
    (basic_block blob st in_c out_c h w stride).cur.trace =
      st.cur.trace ++
        [(st.cur.ofs, out_c * in_c * 9),
         (align4 (st.cur.ofs + out_c * in_c * 9), out_c),
         (align4 (align4 (st.cur.ofs + out_c * in_c * 9) + out_c), out_c),
         (align4 (align4 (align4 (st.cur.ofs + out_c * in_c * 9) + out_c) + out_c),
          out_c * out_c * 9),
         (align4 (align4 (align4 (align4 (st.cur.ofs + out_c * in_c * 9) + out_c) + out_c) +
            out_c * out_c * 9), out_c),
         (align4 (align4 (align4 (align4 (align4 (st.cur.ofs + out_c * in_c * 9) + out_c) +
            out_c) + out_c * out_c * 9) + out_c), out_c)] := by
  have h1 : out_c * in_c * 3 * 3 = out_c * in_c * 9 := by ring
  have h2 : out_c * out_c * 3 * 3 = out_c * out_c * 9 := by ring
  simp only [basic_block, conv2d_3x3, batch_norm, get_weights, h1, h2, List.append_assoc,
    List.cons_append, List.nil_append]

/-! ## Claim C10 — buffer reuse in the residual block -/

theorem conv_sum_input_congr {f g : Nat → Int} (weights : Nat → Int)
    {in_c h w : Nat} (stride padding oc y x : Nat)
    (hfg : ∀ j < in_c * (h * w), f j = g j) :
    conv_sum f weights in_c h w stride padding oc y x =
      conv_sum g weights in_c h w stride padding oc y x := by
  unfold conv_sum
  apply isum_congr
  intro ic hic
  apply isum_congr
  intro ky _
  apply isum_congr
  intro kx _
  dsimp only
  split_ifs with hcond
  · obtain ⟨hy0, hyh, hx0, hxw⟩ := hcond
    have hiy : (((y * stride + ky : Nat) : Int) - ((padding : Nat) : Int)).toNat < h := by
      omega
    have hix : (((x * stride + kx : Nat) : Int) - ((padding : Nat) : Int)).toNat < w := by
      omega
    set ty := (((y * stride + ky : Nat) : Int) - ((padding : Nat) : Int)).toNat
    set tx := (((x * stride + kx : Nat) : Int) - ((padding : Nat) : Int)).toNat
    have hidx : ic * (h * w) + ty * w + tx < in_c * (h * w) := by
      have h5 : ty * w + tx < h * w := by
        calc ty * w + tx < ty * w + w := by omega
          _ = (ty + 1) * w := by ring
          _ ≤ h * w := Nat.mul_le_mul_right w (by omega)
      calc ic * (h * w) + ty * w + tx < ic * (h * w) + h * w := by omega
        _ = (ic + 1) * (h * w) := by ring
        _ ≤ in_c * (h * w) := Nat.mul_le_mul_right _ (by omega)
    rw [hfg _ hidx]
  · rfl

theorem conv_map_input_congr {f g : Nat → Int} (weights : Nat → Int)
    {in_c h w : Nat} (stride padding idx : Nat)
    (hfg : ∀ j < in_c * (h * w), f j = g j) :
    conv_map f weights in_c h w stride padding idx =
      conv_map g weights in_c h w stride padding idx := by
  unfold conv_map conv_val
  dsimp only
  rw [conv_sum_input_congr weights _ _ _ _ _ hfg]

/-- C10: `basic_block` overwrites its input buffer: on the whole written
region the input buffer ends up holding the normalized output of the
second convolution (used as scratch — not the original input), the
shortcut buffer holds the downsample/copy of the original input, and
only the output buffer holds the block's final add-and-rectify result. -/
theorem c10_buffer_reuse (blob : Nat → Int) (st : BBState) (in_c out_c h w stride : Nat)
    (i : Nat) (hi : i < out_c * ((h / stride) * (w / stride))) :
    (basic_block blob st in_c out_c h w stride).inB i =
      rb_pure_inB blob st.inB in_c out_c h w stride st.cur.ofs i ∧
    (basic_block blob st in_c out_c h w stride).outB i =
      add_relu_val (rb_pure_inB blob st.inB in_c out_c h w stride st.cur.ofs i)
        (rb_pure_shortcut st.inB in_c out_c h w stride i) ∧
    (basic_block blob st in_c out_c h w stride).temp i =
      rb_pure_shortcut st.inB in_c out_c h w stride i := by
  have h3 : (basic_block blob st in_c out_c h w stride).temp i =
      rb_pure_shortcut st.inB in_c out_c h w stride i := by
    simp only [basic_block, conv2d_3x3, batch_norm, get_weights, rb_pure_shortcut]
    by_cases hc : stride ≠ 1 ∨ in_c ≠ out_c
    · simp only [if_pos hc, if_pos hi]
    · simp only [if_neg hc, if_pos hi]
  have h1 : (basic_block blob st in_c out_c h w stride).inB i =
      rb_pure_inB blob st.inB in_c out_c h w stride st.cur.ofs i := by
    simp only [basic_block, conv2d_3x3, batch_norm, get_weights, rb_pure_inB, bn_map]
    simp only [if_pos hi]
    congr 1
    apply conv_map_input_congr
    intro j hj
    simp only [bn_map, if_pos hj]
  have hout : (basic_block blob st in_c out_c h w stride).outB i =
      add_relu_val ((basic_block blob st in_c out_c h w stride).inB i)
        ((basic_block blob st in_c out_c h w stride).temp i) := by
    simp only [basic_block, conv2d_3x3, batch_norm, get_weights]
    simp only [if_pos hi]
  exact ⟨h1, by rw [hout, h1, h3], h3⟩

/-- C10 witness: a 1-channel 2x2 identity-shaped block over the all-zero
weight stream; afterwards the input buffer holds the normalized conv2
value 0 — no longer its original content 1. -/
theorem c10_buffer_reuse_witness :
    ((0 : Nat) < 1 * ((2 / 1) * (2 / 1))) ∧
    ((basic_block izero bbWitState 1 1 2 2 1).inB 0 =
        rb_pure_inB izero bbWitState.inB 1 1 2 2 1 bbWitState.cur.ofs 0 ∧
      (basic_block izero bbWitState 1 1 2 2 1).outB 0 =
        add_relu_val (rb_pure_inB izero bbWitState.inB 1 1 2 2 1 bbWitState.cur.ofs 0)
          (rb_pure_shortcut bbWitState.inB 1 1 2 2 1 0) ∧
      (basic_block izero bbWitState 1 1 2 2 1).temp 0 =
        rb_pure_shortcut bbWitState.inB 1 1 2 2 1 0) ∧
    (basic_block izero bbWitState 1 1 2 2 1).inB 0 ≠ bbWitState.inB 0 :=
  ⟨by decide, c10_buffer_reuse izero bbWitState 1 1 2 2 1 0 (by decide), by decide⟩

end VexRiscvNN
